import Mathlib

/-!
# Verification of the MinHash string encoder (`dirty_cat/_minhash_encoder.py`)

A shallow embedding of the MinHash encoder and proofs of the specified
properties.  Machine 32-bit unsigned arithmetic is modelled on `Nat` with an
explicit reduction `% 2^32` after every operation that may overflow;
floating-point encoding components are modelled as rationals (`ℚ`), the exact
values `m / (2^32 - 1)` the code computes before rounding to float64.

The file first embeds the hashing primitives, the n-gram extractor, the LRU
cache and the encoder itself, then states and proves one theorem per claim.
-/

namespace MinHash

/-- Reduction of a `Nat` to an unsigned 32-bit value, the explicit overflow
wrap applied after every 32-bit machine operation. -/
def u32 (x : Nat) : Nat := x % 2 ^ 32

theorem u32_lt (x : Nat) : u32 x < 2 ^ 32 := Nat.mod_lt _ (by norm_num)

/-- 32-bit left rotation (`ROTL32`), embedded on `Nat`. -/
def rotl32 (x r : Nat) : Nat := u32 ((x <<< r) ||| (x >>> (32 - r)))

/-- Final avalanche mix of MurmurHash3 (x86, 32-bit). -/
def fmix32 (h0 : Nat) : Nat :=
  let h1 := u32 (h0 ^^^ (h0 >>> 16))
  let h2 := u32 (h1 * 0x85ebca6b)
  let h3 := u32 (h2 ^^^ (h2 >>> 13))
  let h4 := u32 (h3 * 0xc2b2ae35)
  u32 (h4 ^^^ (h4 >>> 16))

/-- One 4-byte-block step of MurmurHash3 (x86, 32-bit). -/
def murmurStep (h k0 : Nat) : Nat :=
  let k1 := u32 (k0 * 0xcc9e2d51)
  let k2 := rotl32 k1 15
  let k3 := u32 (k2 * 0x1b873593)
  let h1 := u32 (h ^^^ k3)
  let h2 := rotl32 h1 13
  u32 (h2 * 5 + 0xe6546b64)

/-- Consume all full little-endian 4-byte blocks, returning the running hash
state and the remaining tail of fewer than four bytes. -/
def murmurBlocks (h : Nat) : List Nat → Nat × List Nat
  | b0 :: b1 :: b2 :: b3 :: rest =>
      murmurBlocks (murmurStep h (b0 + 256 * b1 + 65536 * b2 + 16777216 * b3)) rest
  | rest => (h, rest)

/-- Little-endian value of a tail of fewer than four bytes. -/
def tailWord : List Nat → Nat
  | [a] => a
  | [a, b] => a + 256 * b
  | [a, b, c] => a + 256 * b + 65536 * c
  | _ => 0

/-- MurmurHash3 (x86, 32-bit) of a byte string with a seed; this is
`sklearn.utils.murmurhash3_32(key, seed=seed, positive=True)`, the unsigned
32-bit hash value used by `MinHashEncoder._get_murmur_hash`. -/
def murmurhash3_32 (bytes : List Nat) (seed : Nat) : Nat :=
  let p := murmurBlocks (u32 seed) bytes
  let h := if p.2.isEmpty then p.1 else
    let k1 := u32 (tailWord p.2 * 0xcc9e2d51)
    let k2 := rotl32 k1 15
    let k3 := u32 (k2 * 0x1b873593)
    u32 (p.1 ^^^ k3)
  fmix32 (u32 (h ^^^ bytes.length))

theorem murmurhash3_32_lt (bytes : List Nat) (seed : Nat) :
    murmurhash3_32 bytes seed < 2 ^ 32 := u32_lt _

/-- UTF-8 encoding of a single character, as Python's `str.encode("utf-8")`
produces for each code point. -/
def utf8Char (c : Char) : List Nat :=
  let n := c.toNat
  if n < 0x80 then [n]
  else if n < 0x800 then [0xC0 + n / 0x40, 0x80 + n % 0x40]
  else if n < 0x10000 then
    [0xE0 + n / 0x1000, 0x80 + (n / 0x40) % 0x40, 0x80 + n % 0x40]
  else
    [0xF0 + n / 0x40000, 0x80 + (n / 0x1000) % 0x40,
     0x80 + (n / 0x40) % 0x40, 0x80 + n % 0x40]

/-- UTF-8 encoding of a character string (an n-gram joined back to a string by
`"".join(gram)` before hashing). -/
def utf8Encode (l : List Char) : List Nat := (l.map utf8Char).flatten

/-- Modelled from the spec: the fast backend's seeded hash (`_fast_hash.py` is
not under `src/`).  Per the spec it is a deterministic, seed-parameterized
mixing function from a byte string to an unsigned 32-bit integer, optimized
for short n-grams; embedded as a seeded multiplicative byte mix reduced to 32
bits after every operation. -/
def fastHash (gram : List Char) (seed : Nat) : Nat :=
  (utf8Encode gram).foldl (fun h b => u32 ((h ^^^ b) * 0x01000193))
    (u32 (seed * 0x9e3779b9 + 0x811c9dc5))

theorem foldl_u32_lt (l : List Nat) (h0 : Nat) (hh : h0 < 2 ^ 32) :
    l.foldl (fun h b => u32 ((h ^^^ b) * 0x01000193)) h0 < 2 ^ 32 := by
  induction l generalizing h0 with
  | nil => simpa using hh
  | cons b bs ih => simpa using ih _ (u32_lt _)

theorem fastHash_lt (gram : List Char) (seed : Nat) :
    fastHash gram seed < 2 ^ 32 :=
  foldl_u32_lt _ _ (u32_lt _)

/-- All windows of length `n` obtained by sliding across a character list. -/
def slidingWindows (n : Nat) (l : List Char) : List (List Char) :=
  (List.range (l.length + 1 - n)).map (fun i => (l.drop i).take n)

/-- Boundary padding for window length `n`: one space on each side, then
right-padded with spaces so that the padded list has length at least `n`. -/
def padForN (l : List Char) (n : Nat) : List Char :=
  (' ' :: l ++ [' ']) ++ List.replicate (n - (' ' :: l ++ [' ']).length) ' '

/-- Modelled from the spec: `get_unique_ngrams` (from `_string_distances.py`,
not under `src/`).  For each `n` from `lo` to `hi` inclusive it produces every
n-gram obtained by sliding a window of length `n` across the string, with a
deterministic boundary-padding rule so that non-empty strings shorter than `n`
still yield at least one n-gram; the union over all `n` is deduplicated.  The
empty string yields the empty set (the spec's own example of an empty n-gram
set). -/
def get_unique_ngrams (s : String) (lo hi : Nat) : List (List Char) :=
  if s.data.isEmpty then []
  else
    (((List.range' lo (hi + 1 - lo)).map
      (fun n => slidingWindows n (padForN s.data n))).flatten).dedup

/-- The n-gram set actually hashed: the string's own n-gram set, or — when
that set is empty — the n-gram set of the fixed whitespace-padded sentinel
string `" Na "` (lines 137–139 of `_minhash_encoder.py`, and the extractor
contract of the spec for the fast path). -/
def gramsOrSentinel (s : String) (lo hi : Nat) : List (List Char) :=
  let grams := get_unique_ngrams s lo hi
  if grams.isEmpty then get_unique_ngrams " Na " lo hi else grams

theorem padForN_length (l : List Char) (n : Nat) : n ≤ (padForN l n).length := by
  simp only [padForN, List.length_append, List.length_replicate]
  omega

theorem slidingWindows_ne_nil (n : Nat) (l : List Char) (h : n ≤ l.length) :
    slidingWindows n l ≠ [] := by
  simp only [slidingWindows, ne_eq, List.map_eq_nil_iff, List.range_eq_nil]
  omega

theorem get_unique_ngrams_ne_nil (s : String) (lo hi : Nat)
    (hs : s.data ≠ []) (h1 : 1 ≤ lo) (h2 : lo ≤ hi) :
    get_unique_ngrams s lo hi ≠ [] := by
  rw [get_unique_ngrams, if_neg (by simpa [List.isEmpty_iff] using hs)]
  simp only [ne_eq, List.dedup_eq_nil, List.flatten_eq_nil_iff]
  intro hall
  exact slidingWindows_ne_nil lo (padForN s.data lo) (padForN_length _ _)
    (hall _ (List.mem_map_of_mem _ (by
      simp only [List.mem_range']
      exact ⟨0, by omega, by omega⟩)))

theorem gramsOrSentinel_ne_nil (s : String) (lo hi : Nat)
    (h1 : 1 ≤ lo) (h2 : lo ≤ hi) :
    gramsOrSentinel s lo hi ≠ [] := by
  by_cases h : (get_unique_ngrams s lo hi).isEmpty
  · simp only [gramsOrSentinel, h, if_pos]
    exact get_unique_ngrams_ne_nil _ lo hi (by decide) h1 h2
  · simpa only [gramsOrSentinel, h, if_neg, Bool.false_eq_true,
      not_false_eq_true] using (by simpa [List.isEmpty_iff] using h)

/-- Normalization of an unsigned 32-bit hash value into `[0, 1]`:
division by `2^32 - 1`. -/
def normalize (m : Nat) : ℚ := (m : ℚ) / (2 ^ 32 - 1)

/-- The minimum over a list of hash values, normalized; an empty list stands
for the `np.infty` initial value of the minimum fold in
`_get_murmur_hash`, normalized to the out-of-range marker `2^32` —
unreachable in the encoder because the sentinel n-gram set is non-empty. -/
def minOrInf (hs : List Nat) : ℚ :=
  match hs.min? with
  | some m => normalize m
  | none => (2 : ℚ) ^ 32

/-- The maximum over a list of hash values, normalized; the empty list again
maps to the unreachable out-of-range marker. -/
def maxOrInf (hs : List Nat) : ℚ :=
  match hs.max? with
  | some m => normalize m
  | none => (2 : ℚ) ^ 32

/-- Modelled from the spec: `ngram_min_hash` (from `_fast_hash.py`, not under
`src/`).  Hashes every n-gram of the string (substituting the sentinel set
when empty, per the extractor contract) with the given seed, and returns the
normalized minimum — or the normalized (minimum, maximum) pair when
`return_minmax` is true. -/
def ngram_min_hash (s : String) (lo hi seed : Nat) (return_minmax : Bool) :
    List ℚ :=
  let hs := (gramsOrSentinel s lo hi).map (fun g => fastHash g seed)
  if return_minmax then [minOrInf hs, maxOrInf hs] else [minOrInf hs]

/-- The encoder's configuration, set at construction (`MinHashEncoder.__init__`);
`ngram_range = (ngram_lo, ngram_hi)`.  The `hashing` and `handle_missing`
selectors are strings, as in the source, so that invalid values are
representable. -/
structure MinHashEncoder where
  n_components : Nat := 30
  ngram_lo : Nat := 2
  ngram_hi : Nat := 4
  hashing : String := "fast"
  minmax_hash : Bool := false
  handle_missing : String := "zero_impute"
deriving DecidableEq

/-- The per-seed minimum of murmur hashes over a fixed n-gram list.  The
source accumulates `np.minimum` over per-gram arrays indexed by the seed `d`;
component-wise this is exactly the minimum over grams of the hash with seed
`d`, starting from `np.infty` (the empty-fold marker of `minOrInf`). -/
def murmurFromGrams (n : Nat) (grams : List (List Char)) : List ℚ :=
  (List.range n).map
    (fun d => minOrInf (grams.map (fun g => murmurhash3_32 (utf8Encode g) d)))

/-- `MinHashEncoder._get_murmur_hash`: encode a string with the murmur
backend. -/
def getMurmurHash (e : MinHashEncoder) (s : String) : List ℚ :=
  murmurFromGrams e.n_components (gramsOrSentinel s e.ngram_lo e.ngram_hi)

/-- `MinHashEncoder._get_fast_hash`: encode a string with the fast backend,
concatenating per-seed minmax pairs when `minmax_hash` is set. -/
def getFastHash (e : MinHashEncoder) (s : String) : List ℚ :=
  if e.minmax_hash then
    ((List.range (e.n_components / 2)).map
      (fun seed => ngram_min_hash s e.ngram_lo e.ngram_hi seed true)).flatten
  else
    ((List.range e.n_components).map
      (fun seed => ngram_min_hash s e.ngram_lo e.ngram_hi seed false)).flatten

theorem normalize_nonneg (m : Nat) : 0 ≤ normalize m := by
  unfold normalize
  positivity

theorem normalize_le_one (m : Nat) (h : m < 2 ^ 32) : normalize m ≤ 1 := by
  unfold normalize
  rw [div_le_one (by norm_num)]
  have : (m : ℚ) ≤ (2 ^ 32 - 1 : ℕ) := by exact_mod_cast Nat.le_sub_one_of_lt h
  calc (m : ℚ) ≤ ((2 ^ 32 - 1 : ℕ) : ℚ) := this
    _ ≤ 2 ^ 32 - 1 := by norm_num

theorem minOrInf_bounds (hs : List Nat) (hne : hs ≠ [])
    (hlt : ∀ h ∈ hs, h < 2 ^ 32) : 0 ≤ minOrInf hs ∧ minOrInf hs ≤ 1 := by
  unfold minOrInf
  cases hmin : hs.min? with
  | none => exact absurd (List.min?_eq_none_iff.mp hmin) hne
  | some m =>
    have hmem : m ∈ hs := List.min?_mem (fun a b => by omega) hmin
    exact ⟨normalize_nonneg m, normalize_le_one m (hlt m hmem)⟩

theorem maxOrInf_bounds (hs : List Nat) (hne : hs ≠ [])
    (hlt : ∀ h ∈ hs, h < 2 ^ 32) : 0 ≤ maxOrInf hs ∧ maxOrInf hs ≤ 1 := by
  unfold maxOrInf
  cases hmax : hs.max? with
  | none => exact absurd (List.max?_eq_none_iff.mp hmax) hne
  | some m =>
    have hmem : m ∈ hs := List.max?_mem (fun a b => by omega) hmax
    exact ⟨normalize_nonneg m, normalize_le_one m (hlt m hmem)⟩

/-- `MinHashEncoder._capacity = 2**10`: the fixed capacity of the hash
cache. -/
def minHashCapacity : Nat := 2 ^ 10

/-- Modelled from the spec: `LRUDict` (from `_utils.py`, not under `src/`).
A bounded key-value store; `entries` is kept in most-recently-used-first
order, so the least-recently-used entry is the last one. -/
structure LRUDict where
  capacity : Nat
  entries : List (String × List ℚ)
deriving DecidableEq

/-- Membership test (`x in d`); per the spec it does not affect recency. -/
def LRUDict.containsKey (d : LRUDict) (k : String) : Bool :=
  d.entries.any (fun e => e.1 == k)

/-- Lookup (`d[x]`) on a key known to be present: returns the stored vector
and moves the entry to most-recent position (a hit counts as a use).  On a
miss it returns a junk value and leaves the store unchanged (a miss does not
insert); the encoder only calls it after a successful membership test. -/
def LRUDict.getUpdate (d : LRUDict) (k : String) : List ℚ × LRUDict :=
  match d.entries.find? (fun e => e.1 == k) with
  | some kv =>
      (kv.2, ⟨d.capacity, (k, kv.2) :: d.entries.eraseP (fun e => e.1 == k)⟩)
  | none => ([], d)

/-- Insertion (`d[x] = v`): a present key is updated and moved to
most-recent position; a new key is inserted at most-recent position, first
discarding the least-recently-used entry when the insertion would exceed
capacity. -/
def LRUDict.put (d : LRUDict) (k : String) (v : List ℚ) : LRUDict :=
  if d.entries.any (fun e => e.1 == k) then
    ⟨d.capacity, (k, v) :: d.entries.eraseP (fun e => e.1 == k)⟩
  else if d.capacity ≤ d.entries.length then
    ⟨d.capacity, (k, v) :: d.entries.dropLast⟩
  else ⟨d.capacity, (k, v) :: d.entries⟩

/-- The keys currently stored in the cache, most recent first. -/
def LRUDict.keys (d : LRUDict) : List String := d.entries.map (fun e => e.1)

/-- A cell of the input array: a string, a Python float (of any value,
NaN or not), or `None`. -/
inductive PyFloat where
  | nan : PyFloat
  | num : ℚ → PyFloat
deriving DecidableEq

/-- One cell of the input array `X`. -/
inductive Cell where
  | str : String → Cell
  | float : PyFloat → Cell
  | pyNone : Cell
deriving DecidableEq

/-- The missing-value test of `transform`: `isinstance(x, float) or x is
None`, else `len(x) == 0`. -/
def isMissing : Cell → Bool
  | .float _ => true
  | .pyNone => true
  | .str s => s.length == 0

/-- The state threaded through `transform`'s loops: the hash cache
(`self.hash_dict_`), the missing-value flag (`is_nan_idx`), and a log of the
`(key, vector)` pairs inserted into the cache, newest first (ghost
instrumentation recording the cache mutations). -/
structure TState where
  cache : LRUDict
  isNan : Bool
  log : List (String × List ℚ)
deriving DecidableEq

/-- The all-zero sub-vector a missing cell leaves in the zero-initialized
output matrix `X_out`. -/
def zeroBlock (n : Nat) : List ℚ := List.replicate n 0

/-- Processing of one cell `x = X[i, k]` in `transform`'s inner loop: missing
cells only set `is_nan_idx` (their slice of the zero-initialized `X_out`
stays zero); a cached string is read from the cache; an uncached string is
encoded with the backend's hash function and inserted into the cache. -/
def processCell (hashFn : String → List ℚ) (n : Nat) (st : TState) (x : Cell) :
    TState × List ℚ :=
  match x with
  | .float _ => (⟨st.cache, true, st.log⟩, zeroBlock n)
  | .pyNone => (⟨st.cache, true, st.log⟩, zeroBlock n)
  | .str s =>
    if s.length == 0 then (⟨st.cache, true, st.log⟩, zeroBlock n)
    else if st.cache.containsKey s then
      (⟨(st.cache.getUpdate s).2, st.isNan, st.log⟩, (st.cache.getUpdate s).1)
    else
      (⟨st.cache.put s (hashFn s), st.isNan, (s, hashFn s) :: st.log⟩, hashFn s)

/-- Processing of one column `X[:, k]` row by row, returning the per-row
blocks written into that column's slice of `X_out`. -/
def processColumn (hashFn : String → List ℚ) (n : Nat) (st : TState) :
    List Cell → TState × List (List ℚ)
  | [] => (st, [])
  | x :: xs =>
    let p := processCell hashFn n st x
    let q := processColumn hashFn n p.1 xs
    (q.1, p.2 :: q.2)

/-- Processing of all columns in order (`for k in range(X.shape[1])`). -/
def processCols (hashFn : String → List ℚ) (n : Nat) (st : TState) :
    List (List Cell) → TState × List (List (List ℚ))
  | [] => (st, [])
  | col :: cols =>
    let p := processColumn hashFn n st col
    let q := processCols hashFn n p.1 cols
    (q.1, p.2 :: q.2)

/-- Reassembly of the output matrix from the per-column blocks: row `i` is
the concatenation, in input-column order, of column `k`'s block for row `i`
(the slice `X_out[i, k*n_components : (k+1)*n_components]`). -/
def assemble (r : Nat) (blocks : List (List (List ℚ))) : List (List ℚ) :=
  (List.range r).map (fun i => (blocks.map (fun colB => colB.getD i [])).flatten)

/-- `MinHashEncoder.fit`: validates `hashing` and `handle_missing` and resets
the hash cache to a fresh empty `LRUDict` of capacity `_capacity`.  The input
data is not touched. -/
def fit (e : MinHashEncoder) : Except String LRUDict :=
  if !(e.hashing == "fast" || e.hashing == "murmur") then
    .error "Got an unexpected hashing value, expected any of fast, murmur."
  else if !(e.handle_missing == "error" || e.handle_missing == "zero_impute") then
    .error "Got an unexpected handle_missing value, expected any of error, zero_impute."
  else .ok ⟨minHashCapacity, []⟩

/-- `MinHashEncoder.transform`, with its full observable effect: the result
(matrix or raised error) together with the final loop state (the mutated
cache and the insertion log).  The input `X` is given as its list of columns
(the code iterates `X[:, k]` for `k in range(X.shape[1])`) together with its
row count `r`; `check_input` is modelled as the identity on rectangular
input.  The two assertions run first; then the per-column loops run (under
the backend selected by `hashing`); the missing-value error, if any, is
raised only after the loops complete. -/
def transformCore (e : MinHashEncoder) (cache : LRUDict) (r : Nat)
    (X : List (List Cell)) : Except String (List (List ℚ)) × TState :=
  let st0 : TState := ⟨cache, false, []⟩
  if e.minmax_hash && !(e.n_components % 2 == 0) then
    (.error "n_components should be even when minmax_hash=True.", st0)
  else if e.hashing == "murmur" && e.minmax_hash then
    (.error "minmax_hash is not implemented with hashing=murmur.", st0)
  else if e.hashing == "fast" then
    let p := processCols (getFastHash e) e.n_components st0 X
    (if p.1.isNan && (e.handle_missing == "error") then
      .error "Found missing values in input data."
    else .ok (assemble r p.2), p.1)
  else if e.hashing == "murmur" then
    let p := processCols (getMurmurHash e) e.n_components st0 X
    (if p.1.isNan && (e.handle_missing == "error") then
      .error "Found missing values in input data."
    else .ok (assemble r p.2), p.1)
  else (.error "NameError: name X_out is not defined", st0)

/-- `transform` as observed by callers: the result and the updated cache. -/
def transform (e : MinHashEncoder) (cache : LRUDict) (r : Nat)
    (X : List (List Cell)) : Except String (List (List ℚ)) × LRUDict :=
  ((transformCore e cache r X).1, (transformCore e cache r X).2.cache)

/-- The per-string encoding function the fitted encoder dispatches to. -/
def encoderHashFn (e : MinHashEncoder) : String → List ℚ :=
  if e.hashing == "fast" then getFastHash e else getMurmurHash e

/-- Correctness invariant of the hash cache: every stored vector is the one
the encoder would recompute for its key.  It holds for the empty cache of a
fresh `fit` and is preserved by `transform`. -/
def CacheInv (f : String → List ℚ) (d : LRUDict) : Prop :=
  ∀ p ∈ d.entries, p.2 = f p.1

theorem LRUDict.getUpdate_of_contains {d : LRUDict} {k : String}
    (h : d.containsKey k = true) :
    ∃ kv ∈ d.entries, kv.1 = k ∧
      d.getUpdate k =
        (kv.2, ⟨d.capacity, (k, kv.2) :: d.entries.eraseP (fun e => e.1 == k)⟩) := by
  rcases List.any_eq_true.mp h with ⟨kv0, hmem0, hbeq0⟩
  cases hfind : d.entries.find? (fun e => e.1 == k) with
  | none =>
    exact absurd (List.find?_eq_none.mp hfind kv0 hmem0) (by simpa using hbeq0)
  | some kv =>
    exact ⟨kv, List.mem_of_find?_eq_some hfind,
      by simpa using List.find?_some hfind,
      by simp [LRUDict.getUpdate, hfind]⟩

theorem LRUDict.getUpdate_cacheInv {f : String → List ℚ} {d : LRUDict}
    {k : String} (hinv : CacheInv f d) (h : d.containsKey k = true) :
    (d.getUpdate k).1 = f k ∧ CacheInv f (d.getUpdate k).2 := by
  rcases LRUDict.getUpdate_of_contains h with ⟨kv, hmem, hk, heq⟩
  rw [heq]
  refine ⟨by rw [hinv kv hmem, hk], ?_⟩
  intro p hp
  rcases List.mem_cons.mp hp with hp | hp
  · rw [hp, hinv kv hmem, hk]
  · exact hinv p (List.eraseP_subset _ hp)

theorem LRUDict.put_cacheInv {f : String → List ℚ} {d : LRUDict} {k : String}
    (hinv : CacheInv f d) : CacheInv f (d.put k (f k)) := by
  intro p hp
  unfold LRUDict.put at hp
  split at hp
  · rcases List.mem_cons.mp hp with hp | hp
    · rw [hp]
    · exact hinv p (List.eraseP_subset _ hp)
  · split at hp
    · rcases List.mem_cons.mp hp with hp | hp
      · rw [hp]
      · exact hinv p (List.dropLast_subset _ hp)
    · rcases List.mem_cons.mp hp with hp | hp
      · rw [hp]
      · exact hinv p hp

theorem LRUDict.getUpdate_capacity (d : LRUDict) (k : String) :
    (d.getUpdate k).2.capacity = d.capacity := by
  unfold LRUDict.getUpdate
  split <;> rfl

theorem LRUDict.put_capacity (d : LRUDict) (k : String) (v : List ℚ) :
    (d.put k v).capacity = d.capacity := by
  unfold LRUDict.put
  split
  · rfl
  · split <;> rfl

theorem LRUDict.getUpdate_length_le (d : LRUDict) (k : String)
    (h : d.entries.length ≤ d.capacity) :
    (d.getUpdate k).2.entries.length ≤ d.capacity := by
  unfold LRUDict.getUpdate
  cases hfind : d.entries.find? (fun e => e.1 == k) with
  | none => exact h
  | some kv =>
    have hmem : kv ∈ d.entries := List.mem_of_find?_eq_some hfind
    have hps := List.find?_some hfind
    have hlen := List.length_eraseP_of_mem (p := fun e => e.1 == k) hmem hps
    have hpos : 1 ≤ d.entries.length := List.length_pos.mpr (by
      intro hnil
      rw [hnil] at hmem
      simp at hmem)
    simp only [List.length_cons, hlen]
    omega

theorem LRUDict.put_length_le (d : LRUDict) (k : String) (v : List ℚ)
    (hcap : 1 ≤ d.capacity) (h : d.entries.length ≤ d.capacity) :
    (d.put k v).entries.length ≤ d.capacity := by
  unfold LRUDict.put
  split
  · rename_i hany
    rcases List.any_eq_true.mp hany with ⟨kv, hmem, hbeq⟩
    have hlen := List.length_eraseP_of_mem (p := fun e => e.1 == k) hmem hbeq
    have hpos : 1 ≤ d.entries.length := List.length_pos.mpr (by
      intro hnil
      rw [hnil] at hmem
      simp at hmem)
    simp only [List.length_cons, hlen]
    omega
  · split
    · rename_i hfull
      have := List.length_dropLast d.entries
      simp only [List.length_cons, List.length_dropLast]
      omega
    · rename_i hroom
      simp only [List.length_cons]
      omega

theorem LRUDict.getUpdate_keys_subset (d : LRUDict) (k : String)
    (h : d.containsKey k = true) :
    ∀ a ∈ (d.getUpdate k).2.keys, a ∈ d.keys := by
  rcases LRUDict.getUpdate_of_contains h with ⟨kv, hmem, hk, heq⟩
  rw [heq]
  intro a ha
  simp only [LRUDict.keys, List.map_cons, List.mem_cons] at ha
  rcases ha with ha | ha
  · rw [ha, ← hk]
    exact List.mem_map_of_mem _ hmem
  · rcases List.mem_map.mp ha with ⟨p, hp, hpa⟩
    rw [← hpa]
    exact List.mem_map_of_mem _ (List.eraseP_subset _ hp)

theorem LRUDict.put_keys_subset (d : LRUDict) (k : String) (v : List ℚ) :
    ∀ a ∈ (d.put k v).keys, a = k ∨ a ∈ d.keys := by
  intro a ha
  unfold LRUDict.put at ha
  simp only [LRUDict.keys] at ha ⊢
  split at ha <;>
    [skip; (split at ha)] <;>
    · simp only [List.map_cons, List.mem_cons] at ha
      rcases ha with ha | ha
      · exact Or.inl ha
      · rcases List.mem_map.mp ha with ⟨p, hp, hpa⟩
        refine Or.inr ?_
        rw [← hpa]
        first
        | exact List.mem_map_of_mem _ (List.eraseP_subset _ hp)
        | exact List.mem_map_of_mem _ (List.dropLast_subset _ hp)
        | exact List.mem_map_of_mem _ hp

theorem LRUDict.mem_keys_of_containsKey {d : LRUDict} {k : String}
    (h : d.containsKey k = true) : k ∈ d.keys := by
  rcases List.any_eq_true.mp h with ⟨kv, hmem, hbeq⟩
  have : kv.1 = k := by simpa using hbeq
  rw [← this]
  exact List.mem_map_of_mem _ hmem

/-- The value a cell contributes to the output matrix, as a pure function of
the cell: zero for a missing cell, the backend encoding otherwise.  The hash
cache is transparent with respect to this function. -/
def pureCell (f : String → List ℚ) (n : Nat) : Cell → List ℚ
  | .str s => if s.length == 0 then zeroBlock n else f s
  | _ => zeroBlock n

theorem processCell_cacheInv {f : String → List ℚ} {n : Nat} {st : TState}
    {x : Cell} (hinv : CacheInv f st.cache) :
    CacheInv f ((processCell f n st x).1).cache := by
  cases x with
  | float q => exact hinv
  | pyNone => exact hinv
  | str s =>
    simp only [processCell]
    split
    · exact hinv
    · split
      · rename_i hc
        exact (LRUDict.getUpdate_cacheInv hinv hc).2
      · exact LRUDict.put_cacheInv hinv

theorem processCell_snd {f : String → List ℚ} {n : Nat} {st : TState}
    {x : Cell} (hinv : CacheInv f st.cache) :
    (processCell f n st x).2 = pureCell f n x := by
  cases x with
  | float q => rfl
  | pyNone => rfl
  | str s =>
    simp only [processCell, pureCell]
    split
    · rfl
    · split
      · rename_i hc
        exact (LRUDict.getUpdate_cacheInv hinv hc).1
      · rfl

theorem processCell_isNan (f : String → List ℚ) (n : Nat) (st : TState)
    (x : Cell) : ((processCell f n st x).1).isNan = (st.isNan || isMissing x) := by
  cases x with
  | float q => simp [processCell, isMissing]
  | pyNone => simp [processCell, isMissing]
  | str s =>
    simp only [processCell, isMissing]
    split
    · rename_i h0
      simp [h0]
    · rename_i h0
      rw [Bool.eq_false_iff.mpr h0, Bool.or_false]
      split <;> rfl

theorem processCell_log_mono (f : String → List ℚ) (n : Nat) (st : TState)
    (x : Cell) : ∀ a ∈ st.log, a ∈ ((processCell f n st x).1).log := by
  intro a ha
  cases x with
  | float q => exact ha
  | pyNone => exact ha
  | str s =>
    simp only [processCell]
    split
    · exact ha
    · split
      · exact ha
      · exact List.mem_cons_of_mem _ ha

theorem processCell_log_src (f : String → List ℚ) (n : Nat) (st : TState)
    (x : Cell) : ∀ a ∈ ((processCell f n st x).1).log,
      a ∈ st.log ∨ (x = Cell.str a.1 ∧ a.1.length ≠ 0) := by
  intro a ha
  cases x with
  | float q => exact Or.inl ha
  | pyNone => exact Or.inl ha
  | str s =>
    simp only [processCell] at ha
    by_cases h0 : (s.length == 0) = true
    · rw [if_pos h0] at ha
      exact Or.inl ha
    · rw [if_neg h0] at ha
      by_cases hc : st.cache.containsKey s = true
      · rw [if_pos hc] at ha
        exact Or.inl ha
      · rw [if_neg hc] at ha
        rcases List.mem_cons.mp ha with ha | ha
        · refine Or.inr ⟨by rw [ha], ?_⟩
          rw [ha]
          simpa using h0
        · exact Or.inl ha

theorem processCell_keys (f : String → List ℚ) (n : Nat) (st : TState)
    (x : Cell) : ∀ k ∈ ((processCell f n st x).1).cache.keys,
      k ∈ st.cache.keys ∨ k ∈ ((processCell f n st x).1).log.map (fun a => a.1) := by
  intro k hk
  cases x with
  | float q => exact Or.inl hk
  | pyNone => exact Or.inl hk
  | str s =>
    simp only [processCell] at hk ⊢
    by_cases h0 : (s.length == 0) = true
    · rw [if_pos h0] at hk
      exact Or.inl hk
    · rw [if_neg h0] at hk ⊢
      by_cases hc : st.cache.containsKey s = true
      · rw [if_pos hc] at hk
        exact Or.inl (LRUDict.getUpdate_keys_subset _ _ hc _ hk)
      · rw [if_neg hc] at hk ⊢
        rcases LRUDict.put_keys_subset _ _ _ _ hk with hk | hk
        · exact Or.inr (by simp [hk])
        · exact Or.inl hk

theorem processCell_covered (f : String → List ℚ) (n : Nat) (st : TState)
    (s : String) (h0 : s.length ≠ 0) :
    s ∈ ((processCell f n st (Cell.str s)).1).log.map (fun a => a.1) ∨
      s ∈ st.cache.keys := by
  simp only [processCell]
  split
  · rename_i hz
    exact absurd (by simpa using hz) h0
  · split
    · rename_i hc
      exact Or.inr (LRUDict.mem_keys_of_containsKey hc)
    · exact Or.inl (by simp)

theorem processCell_capacity (f : String → List ℚ) (n : Nat) (st : TState)
    (x : Cell) : ((processCell f n st x).1).cache.capacity = st.cache.capacity := by
  cases x with
  | float q => rfl
  | pyNone => rfl
  | str s =>
    simp only [processCell]
    split
    · rfl
    · split
      · exact LRUDict.getUpdate_capacity _ _
      · exact LRUDict.put_capacity _ _ _

theorem processCell_length_le (f : String → List ℚ) (n : Nat) (st : TState)
    (x : Cell) (hcap : 1 ≤ st.cache.capacity)
    (h : st.cache.entries.length ≤ st.cache.capacity) :
    ((processCell f n st x).1).cache.entries.length ≤ st.cache.capacity := by
  cases x with
  | float q => exact h
  | pyNone => exact h
  | str s =>
    simp only [processCell]
    split
    · exact h
    · split
      · exact LRUDict.getUpdate_length_le _ _ h
      · exact LRUDict.put_length_le _ _ _ hcap h

theorem processColumn_fst_cacheInv {f : String → List ℚ} {n : Nat}
    (col : List Cell) (st : TState) (hinv : CacheInv f st.cache) :
    CacheInv f ((processColumn f n st col).1).cache := by
  induction col generalizing st with
  | nil => exact hinv
  | cons x xs ih =>
    simp only [processColumn]
    exact ih _ (processCell_cacheInv hinv)

theorem processColumn_snd {f : String → List ℚ} {n : Nat}
    (col : List Cell) (st : TState) (hinv : CacheInv f st.cache) :
    (processColumn f n st col).2 = col.map (pureCell f n) := by
  induction col generalizing st with
  | nil => rfl
  | cons x xs ih =>
    simp only [processColumn, List.map_cons]
    rw [processCell_snd hinv, ih _ (processCell_cacheInv hinv)]

theorem processColumn_isNan (f : String → List ℚ) (n : Nat)
    (col : List Cell) (st : TState) :
    ((processColumn f n st col).1).isNan = (st.isNan || col.any isMissing) := by
  induction col generalizing st with
  | nil => simp [processColumn]
  | cons x xs ih =>
    simp only [processColumn, List.any_cons]
    rw [ih, processCell_isNan, Bool.or_assoc]

theorem processColumn_log_mono (f : String → List ℚ) (n : Nat)
    (col : List Cell) (st : TState) :
    ∀ a ∈ st.log, a ∈ ((processColumn f n st col).1).log := by
  induction col generalizing st with
  | nil => exact fun a ha => ha
  | cons x xs ih =>
    intro a ha
    simp only [processColumn]
    exact ih _ a (processCell_log_mono f n st x a ha)

theorem processColumn_log_src (f : String → List ℚ) (n : Nat)
    (col : List Cell) (st : TState) :
    ∀ a ∈ ((processColumn f n st col).1).log,
      a ∈ st.log ∨ (Cell.str a.1 ∈ col ∧ a.1.length ≠ 0) := by
  induction col generalizing st with
  | nil => exact fun a ha => Or.inl ha
  | cons x xs ih =>
    intro a ha
    simp only [processColumn] at ha
    rcases ih _ a ha with ha2 | ha2
    · rcases processCell_log_src f n st x a ha2 with ha3 | ha3
      · exact Or.inl ha3
      · exact Or.inr ⟨by rw [← ha3.1]; exact List.mem_cons_self _ _, ha3.2⟩
    · exact Or.inr ⟨List.mem_cons_of_mem _ ha2.1, ha2.2⟩

theorem processColumn_keys (f : String → List ℚ) (n : Nat)
    (col : List Cell) (st : TState) :
    ∀ k ∈ ((processColumn f n st col).1).cache.keys,
      k ∈ st.cache.keys ∨
        k ∈ ((processColumn f n st col).1).log.map (fun a => a.1) := by
  induction col generalizing st with
  | nil => exact fun k hk => Or.inl hk
  | cons x xs ih =>
    intro k hk
    simp only [processColumn] at hk ⊢
    rcases ih _ k hk with hk2 | hk2
    · rcases processCell_keys f n st x k hk2 with hk3 | hk3
      · exact Or.inl hk3
      · rcases List.mem_map.mp hk3 with ⟨a, ha, hak⟩
        refine Or.inr ?_
        rw [← hak]
        exact List.mem_map_of_mem _ (processColumn_log_mono f n xs _ a ha)
    · exact Or.inr hk2

theorem processColumn_covered (f : String → List ℚ) (n : Nat)
    (col : List Cell) (st : TState) :
    ∀ s : String, Cell.str s ∈ col → s.length ≠ 0 →
      s ∈ ((processColumn f n st col).1).log.map (fun a => a.1) ∨
        s ∈ st.cache.keys := by
  induction col generalizing st with
  | nil => simp
  | cons x xs ih =>
    intro s hs h0
    simp only [processColumn]
    rcases List.mem_cons.mp hs with hs | hs
    · subst hs
      rcases processCell_covered f n st s h0 with hlog | hcache
      · rcases List.mem_map.mp hlog with ⟨a, ha, hak⟩
        exact Or.inl (List.mem_map.mpr
          ⟨a, processColumn_log_mono f n xs _ a ha, hak⟩)
      · exact Or.inr hcache
    · rcases ih ((processCell f n st x).1) s hs h0 with hlog | hcache
      · exact Or.inl hlog
      · rcases processCell_keys f n st x s hcache with hk | hk
        · exact Or.inr hk
        · rcases List.mem_map.mp hk with ⟨a, ha, hak⟩
          exact Or.inl (List.mem_map.mpr
            ⟨a, processColumn_log_mono f n xs _ a ha, hak⟩)

theorem processColumn_capacity (f : String → List ℚ) (n : Nat)
    (col : List Cell) (st : TState) :
    ((processColumn f n st col).1).cache.capacity = st.cache.capacity := by
  induction col generalizing st with
  | nil => rfl
  | cons x xs ih =>
    simp only [processColumn]
    rw [ih, processCell_capacity]

theorem processColumn_length_le (f : String → List ℚ) (n : Nat)
    (col : List Cell) (st : TState) (hcap : 1 ≤ st.cache.capacity)
    (h : st.cache.entries.length ≤ st.cache.capacity) :
    ((processColumn f n st col).1).cache.entries.length ≤ st.cache.capacity := by
  induction col generalizing st with
  | nil => exact h
  | cons x xs ih =>
    simp only [processColumn]
    have hcap2 := processCell_capacity f n st x
    rw [← hcap2]
    exact ih _ (by rw [hcap2]; exact hcap)
      (by rw [hcap2]; exact processCell_length_le f n st x hcap h)

theorem processColumn_blocks_length {f : String → List ℚ} {n : Nat}
    (col : List Cell) (st : TState) :
    ((processColumn f n st col).2).length = col.length := by
  induction col generalizing st with
  | nil => rfl
  | cons x xs ih => simp only [processColumn, List.length_cons, ih]

theorem processCols_fst_cacheInv {f : String → List ℚ} {n : Nat}
    (X : List (List Cell)) (st : TState) (hinv : CacheInv f st.cache) :
    CacheInv f ((processCols f n st X).1).cache := by
  induction X generalizing st with
  | nil => exact hinv
  | cons col cols ih =>
    simp only [processCols]
    exact ih _ (processColumn_fst_cacheInv col st hinv)

theorem processCols_snd {f : String → List ℚ} {n : Nat}
    (X : List (List Cell)) (st : TState) (hinv : CacheInv f st.cache) :
    (processCols f n st X).2 = X.map (fun col => col.map (pureCell f n)) := by
  induction X generalizing st with
  | nil => rfl
  | cons col cols ih =>
    simp only [processCols, List.map_cons]
    rw [processColumn_snd col st hinv,
      ih _ (processColumn_fst_cacheInv col st hinv)]

theorem processCols_isNan (f : String → List ℚ) (n : Nat)
    (X : List (List Cell)) (st : TState) :
    ((processCols f n st X).1).isNan
      = (st.isNan || X.any (fun col => col.any isMissing)) := by
  induction X generalizing st with
  | nil => simp [processCols]
  | cons col cols ih =>
    simp only [processCols, List.any_cons]
    rw [ih, processColumn_isNan, Bool.or_assoc]

theorem processCols_log_mono (f : String → List ℚ) (n : Nat)
    (X : List (List Cell)) (st : TState) :
    ∀ a ∈ st.log, a ∈ ((processCols f n st X).1).log := by
  induction X generalizing st with
  | nil => exact fun a ha => ha
  | cons col cols ih =>
    intro a ha
    simp only [processCols]
    exact ih _ a (processColumn_log_mono f n col st a ha)

theorem processCols_log_src (f : String → List ℚ) (n : Nat)
    (X : List (List Cell)) (st : TState) :
    ∀ a ∈ ((processCols f n st X).1).log,
      a ∈ st.log ∨ (∃ col ∈ X, Cell.str a.1 ∈ col ∧ a.1.length ≠ 0) := by
  induction X generalizing st with
  | nil => exact fun a ha => Or.inl ha
  | cons col cols ih =>
    intro a ha
    simp only [processCols] at ha
    rcases ih _ a ha with ha2 | ha2
    · rcases processColumn_log_src f n col st a ha2 with ha3 | ha3
      · exact Or.inl ha3
      · exact Or.inr ⟨col, List.mem_cons_self _ _, ha3⟩
    · rcases ha2 with ⟨c, hc, hmem⟩
      exact Or.inr ⟨c, List.mem_cons_of_mem _ hc, hmem⟩

theorem processCols_keys (f : String → List ℚ) (n : Nat)
    (X : List (List Cell)) (st : TState) :
    ∀ k ∈ ((processCols f n st X).1).cache.keys,
      k ∈ st.cache.keys ∨
        k ∈ ((processCols f n st X).1).log.map (fun a => a.1) := by
  induction X generalizing st with
  | nil => exact fun k hk => Or.inl hk
  | cons col cols ih =>
    intro k hk
    simp only [processCols] at hk ⊢
    rcases ih _ k hk with hk2 | hk2
    · rcases processColumn_keys f n col st k hk2 with hk3 | hk3
      · exact Or.inl hk3
      · rcases List.mem_map.mp hk3 with ⟨a, ha, hak⟩
        exact Or.inr (List.mem_map.mpr
          ⟨a, processCols_log_mono f n cols _ a ha, hak⟩)
    · exact Or.inr hk2

theorem processCols_covered (f : String → List ℚ) (n : Nat)
    (X : List (List Cell)) (st : TState) :
    ∀ s : String, (∃ col ∈ X, Cell.str s ∈ col) → s.length ≠ 0 →
      s ∈ ((processCols f n st X).1).log.map (fun a => a.1) ∨
        s ∈ st.cache.keys := by
  induction X generalizing st with
  | nil => simp
  | cons col cols ih =>
    intro s hs h0
    simp only [processCols]
    rcases hs with ⟨c, hc, hmem⟩
    rcases List.mem_cons.mp hc with hc | hc
    · subst hc
      rcases processColumn_covered f n c st s hmem h0 with hlog | hcache
      · rcases List.mem_map.mp hlog with ⟨a, ha, hak⟩
        exact Or.inl (List.mem_map.mpr
          ⟨a, processCols_log_mono f n cols _ a ha, hak⟩)
      · exact Or.inr hcache
    · rcases ih ((processColumn f n st col).1) s ⟨c, hc, hmem⟩ h0 with
        hlog | hcache
      · exact Or.inl hlog
      · rcases processColumn_keys f n col st s hcache with hk | hk
        · exact Or.inr hk
        · rcases List.mem_map.mp hk with ⟨a, ha, hak⟩
          exact Or.inl (List.mem_map.mpr
            ⟨a, processCols_log_mono f n cols _ a ha, hak⟩)

theorem processCols_capacity (f : String → List ℚ) (n : Nat)
    (X : List (List Cell)) (st : TState) :
    ((processCols f n st X).1).cache.capacity = st.cache.capacity := by
  induction X generalizing st with
  | nil => rfl
  | cons col cols ih =>
    simp only [processCols]
    rw [ih, processColumn_capacity]

theorem processCols_length_le (f : String → List ℚ) (n : Nat)
    (X : List (List Cell)) (st : TState) (hcap : 1 ≤ st.cache.capacity)
    (h : st.cache.entries.length ≤ st.cache.capacity) :
    ((processCols f n st X).1).cache.entries.length ≤ st.cache.capacity := by
  induction X generalizing st with
  | nil => exact h
  | cons col cols ih =>
    simp only [processCols]
    have hcap2 := processColumn_capacity f n col st
    rw [← hcap2]
    exact ih _ (by rw [hcap2]; exact hcap)
      (by rw [hcap2]; exact processColumn_length_le f n col st hcap h)

theorem processCols_blocks_length {f : String → List ℚ} {n : Nat}
    (X : List (List Cell)) (st : TState) :
    ((processCols f n st X).2).length = X.length := by
  induction X generalizing st with
  | nil => rfl
  | cons col cols ih => simp only [processCols, List.length_cons, ih]

theorem length_flatten_const {α β : Type} (l : List α) (g : α → List β)
    (c : Nat) (h : ∀ x ∈ l, (g x).length = c) :
    ((l.map g).flatten).length = l.length * c := by
  induction l with
  | nil => simp
  | cons x xs ih =>
    simp only [List.map_cons, List.flatten_cons, List.length_append,
      List.length_cons, h x (List.mem_cons_self _ _),
      ih (fun y hy => h y (List.mem_cons_of_mem _ hy))]
    ring

theorem ngram_min_hash_length (s : String) (lo hi seed : Nat) (mm : Bool) :
    (ngram_min_hash s lo hi seed mm).length = if mm then 2 else 1 := by
  cases mm <;> simp [ngram_min_hash]

theorem getMurmurHash_length (e : MinHashEncoder) (s : String) :
    (getMurmurHash e s).length = e.n_components := by
  simp [getMurmurHash, murmurFromGrams]

theorem getFastHash_length (e : MinHashEncoder) (s : String)
    (heven : e.minmax_hash = true → e.n_components % 2 = 0) :
    (getFastHash e s).length = e.n_components := by
  unfold getFastHash
  cases hmm : e.minmax_hash with
  | false =>
    simp only [Bool.false_eq_true, if_neg, if_false]
    rw [length_flatten_const _ _ 1 (fun x _ => by
      simp [ngram_min_hash_length])]
    simp
  | true =>
    simp only [if_pos, if_true]
    rw [length_flatten_const _ _ 2 (fun x _ => by
      simp [ngram_min_hash_length])]
    simp only [List.length_range]
    have h2 : e.n_components % 2 = 0 := heven hmm
    omega

theorem pureCell_length (f : String → List ℚ) (n : Nat) (x : Cell)
    (hflen : ∀ s, (f s).length = n) : (pureCell f n x).length = n := by
  cases x with
  | float q => simp [pureCell, zeroBlock]
  | pyNone => simp [pureCell, zeroBlock]
  | str s =>
    simp only [pureCell]
    split
    · simp [zeroBlock]
    · exact hflen s

theorem flatten_drop_take {l : List (List ℚ)} {n : Nat}
    (h : ∀ b ∈ l, b.length = n) (k : Nat) (hk : k < l.length) :
    (l.flatten.drop (k * n)).take n = l.get ⟨k, hk⟩ := by
  induction l generalizing k with
  | nil => simp at hk
  | cons b bs ih =>
    cases k with
    | zero =>
      simp only [Nat.zero_mul, List.drop_zero, List.flatten_cons, List.get]
      exact List.take_left' (h b (List.mem_cons_self _ _))
    | succ k2 =>
      have hb := h b (List.mem_cons_self _ _)
      have hdrop : ((b :: bs).flatten).drop ((k2 + 1) * n)
          = (bs.flatten).drop (k2 * n) := by
        rw [List.flatten_cons]
        have h1 : (k2 + 1) * n = b.length + k2 * n := by rw [hb]; ring
        rw [h1, ← List.drop_drop, List.drop_left]
      rw [hdrop]
      exact ih (fun x hx => h x (List.mem_cons_of_mem _ hx)) k2
        (by simpa using hk)

theorem assemble_length (r : Nat) (blocks : List (List (List ℚ))) :
    (assemble r blocks).length = r := by
  simp [assemble]

theorem assemble_getD (r : Nat) (blocks : List (List (List ℚ)))
    (i : Nat) (hi : i < r) :
    (assemble r blocks).getD i []
      = (blocks.map (fun colB => colB.getD i [])).flatten := by
  rw [assemble, List.getD_eq_getElem _ _ (by simpa using hi)]
  simp

/-- The pure, cache-free specification of `transform`'s result: the same
assertion checks, the same missing-value error, and otherwise the matrix of
per-cell encodings.  `transform` produces exactly this value whenever its
cache satisfies `CacheInv`. -/
def pureTransform (e : MinHashEncoder) (r : Nat) (X : List (List Cell)) :
    Except String (List (List ℚ)) :=
  if e.minmax_hash && !(e.n_components % 2 == 0) then
    .error "n_components should be even when minmax_hash=True."
  else if e.hashing == "murmur" && e.minmax_hash then
    .error "minmax_hash is not implemented with hashing=murmur."
  else if e.hashing == "fast" then
    if X.any (fun col => col.any isMissing) && (e.handle_missing == "error") then
      .error "Found missing values in input data."
    else
      .ok (assemble r
        (X.map (fun col => col.map (pureCell (getFastHash e) e.n_components))))
  else if e.hashing == "murmur" then
    if X.any (fun col => col.any isMissing) && (e.handle_missing == "error") then
      .error "Found missing values in input data."
    else
      .ok (assemble r
        (X.map (fun col => col.map (pureCell (getMurmurHash e) e.n_components))))
  else .error "NameError: name X_out is not defined"

theorem encoderHashFn_fast {e : MinHashEncoder} (h : (e.hashing == "fast") = true) :
    encoderHashFn e = getFastHash e := by
  simp [encoderHashFn, h]

theorem encoderHashFn_murmur {e : MinHashEncoder}
    (h3 : (e.hashing == "fast") = false) :
    encoderHashFn e = getMurmurHash e := by
  simp [encoderHashFn, h3]

theorem transform_fst_pure (e : MinHashEncoder) (c : LRUDict) (r : Nat)
    (X : List (List Cell)) (hinv : CacheInv (encoderHashFn e) c) :
    (transform e c r X).1 = pureTransform e r X := by
  by_cases h1 : (e.minmax_hash && !(e.n_components % 2 == 0)) = true
  · simp [transform, transformCore, pureTransform, h1]
  · by_cases h2 : (e.hashing == "murmur" && e.minmax_hash) = true
    · simp [transform, transformCore, pureTransform, h1, h2]
    · by_cases h3 : (e.hashing == "fast") = true
      · rw [encoderHashFn_fast h3] at hinv
        have hsnd := processCols_snd (n := e.n_components) X
          ⟨c, false, []⟩ hinv
        have hnan := processCols_isNan (getFastHash e) e.n_components X
          ⟨c, false, []⟩
        simp only [transform, transformCore, pureTransform, h1, h2, h3,
          Bool.false_eq_true, if_false, if_true]
        rw [hnan, hsnd]
        simp
      · by_cases h4 : (e.hashing == "murmur") = true
        · rw [encoderHashFn_murmur (by simpa using h3)] at hinv
          have hmm : e.minmax_hash = false := by simpa [h4] using h2
          have hsnd := processCols_snd (n := e.n_components) X
            ⟨c, false, []⟩ hinv
          have hnan := processCols_isNan (getMurmurHash e) e.n_components X
            ⟨c, false, []⟩
          simp only [transform, transformCore, pureTransform, h1, h2, h3, h4,
            hmm, Bool.false_eq_true, if_false, if_true]
          rw [hnan, hsnd]
          simp
        · simp [transform, transformCore, pureTransform, h1, h2, h3, h4]

theorem transform_snd_cacheInv (e : MinHashEncoder) (c : LRUDict) (r : Nat)
    (X : List (List Cell)) (hinv : CacheInv (encoderHashFn e) c) :
    CacheInv (encoderHashFn e) (transform e c r X).2 := by
  by_cases h1 : (e.minmax_hash && !(e.n_components % 2 == 0)) = true
  · simpa [transform, transformCore, h1] using hinv
  · by_cases h2 : (e.hashing == "murmur" && e.minmax_hash) = true
    · simpa [transform, transformCore, h1, h2] using hinv
    · by_cases h3 : (e.hashing == "fast") = true
      · rw [encoderHashFn_fast h3] at hinv ⊢
        simp only [transform, transformCore, h1, h2, h3,
          Bool.false_eq_true, if_false, if_true]
        exact processCols_fst_cacheInv X ⟨c, false, []⟩ hinv
      · by_cases h4 : (e.hashing == "murmur") = true
        · rw [encoderHashFn_murmur (by simpa using h3)] at hinv ⊢
          have hmm : e.minmax_hash = false := by simpa [h4] using h2
          simp only [transform, transformCore, h1, h2, h3, h4, hmm,
            Bool.false_eq_true, if_false, if_true]
          exact processCols_fst_cacheInv X ⟨c, false, []⟩ hinv
        · simpa [transform, transformCore, h1, h2, h3, h4] using hinv

/-- Division of a work list into consecutive chunks of `max 1 k` items (the
last chunk may be shorter): the unit of dispatch to one worker. -/
def chunkList {α : Type} (k : Nat) : List α → List (List α)
  | [] => []
  | x :: xs =>
    (x :: xs.take (max 1 k - 1)) :: chunkList k (xs.drop (max 1 k - 1))
termination_by l => l.length
decreasing_by
  simp only [List.length_drop, List.length_cons]
  omega

theorem chunkList_flatten {α : Type} (k : Nat) (l : List α) :
    (chunkList k l).flatten = l := by
  generalize hn : l.length = n
  induction n using Nat.strong_induction_on generalizing l with
  | _ n ih =>
    cases l with
    | nil => simp [chunkList]
    | cons x xs =>
      rw [chunkList, List.flatten_cons, List.cons_append, List.cons.injEq]
      refine ⟨rfl, ?_⟩
      rw [ih ((xs.drop (max 1 k - 1)).length) (by
          simp only [List.length_drop]
          simp only [List.length_cons] at hn
          omega) _ rfl]
      exact List.take_append_drop _ _

/-- The distinct non-missing string values of one column, in first-occurrence
order: the unit of deduplicated hashing work. -/
def distinctVals (col : List Cell) : List String :=
  (col.filterMap (fun x => match x with
    | Cell.str s => if s.length == 0 then Option.none else some s
    | _ => Option.none)).dedup

/-- The chunk size used to split `total` work items across `n_jobs` workers
with `batch_per_job` batches each. -/
def chunkSizeOf (total n_jobs batch_per_job : Nat) : Nat :=
  max 1 ((total + n_jobs * batch_per_job - 1) / (max 1 (n_jobs * batch_per_job)))

/-- Modelled from the spec: the batched/parallel `transform` variant (the
benchmark constructs `MinHashEncoder(batch=..., n_jobs=..., batch_per_job=...)`,
but that implementation is not under `src/`).  Per the spec, each column's
distinct non-missing values are split into chunks handed to stateless
workers, each worker maps the pure per-string encoding over its chunk, the
orchestrator deterministically collects all `(value, vector)` pairs, and the
vectors are scattered back to rows (missing cells receiving the zero
vector). -/
def transformBatched (e : MinHashEncoder) (n_jobs batch_per_job : Nat)
    (r : Nat) (X : List (List Cell)) : List (List ℚ) :=
  assemble r (X.map (fun col =>
    let pairs := ((chunkList
        (chunkSizeOf (distinctVals col).length n_jobs batch_per_job)
        (distinctVals col)).map
      (fun ch => ch.map (fun v => (v, encoderHashFn e v)))).flatten
    col.map (fun x => match x with
      | Cell.str s =>
          if s.length == 0 then zeroBlock e.n_components
          else ((pairs.find? (fun p => p.1 == s)).map
            (fun p => p.2)).getD (zeroBlock e.n_components)
      | _ => zeroBlock e.n_components)))

theorem transformBatched_pairs (e : MinHashEncoder) (col : List Cell)
    (sz : Nat) :
    ((chunkList sz (distinctVals col)).map
      (fun ch => ch.map (fun v => (v, encoderHashFn e v)))).flatten
      = (distinctVals col).map (fun v => (v, encoderHashFn e v)) := by
  rw [← List.map_flatten, chunkList_flatten]

theorem ngram_min_hash_bounds (s : String) (lo hi seed : Nat) (mm : Bool)
    (h1 : 1 ≤ lo) (h2 : lo ≤ hi) :
    ∀ q ∈ ngram_min_hash s lo hi seed mm, 0 ≤ q ∧ q ≤ 1 := by
  intro q hq
  have hne : (gramsOrSentinel s lo hi).map (fun g => fastHash g seed) ≠ [] := by
    simpa using gramsOrSentinel_ne_nil s lo hi h1 h2
  have hlt : ∀ h ∈ (gramsOrSentinel s lo hi).map (fun g => fastHash g seed),
      h < 2 ^ 32 := by
    intro h hh
    rcases List.mem_map.mp hh with ⟨g, _, hg⟩
    rw [← hg]
    exact fastHash_lt g seed
  unfold ngram_min_hash at hq
  cases mm with
  | false =>
    simp only [Bool.false_eq_true, if_neg, if_false, List.mem_singleton] at hq
    rw [hq]
    exact minOrInf_bounds _ hne hlt
  | true =>
    simp only [if_pos, if_true, List.mem_cons, List.mem_singleton,
      List.not_mem_nil, or_false] at hq
    rcases hq with hq | hq
    · rw [hq]
      exact minOrInf_bounds _ hne hlt
    · rw [hq]
      exact maxOrInf_bounds _ hne hlt

/-- C1: for every string and every configuration with a valid n-gram range,
every component of the vector returned by the per-string encoding functions
(`_get_murmur_hash`, and `_get_fast_hash` in both its min and min/max modes)
lies in `[0, 1]`: the extremal hash value, an unsigned 32-bit integer, is
divided by `2^32 - 1` before being emitted. -/
theorem encoding_in_unit_interval (e : MinHashEncoder) (s : String)
    (h1 : 1 ≤ e.ngram_lo) (h2 : e.ngram_lo ≤ e.ngram_hi) :
    (∀ q ∈ getMurmurHash e s, 0 ≤ q ∧ q ≤ 1) ∧
    (∀ q ∈ getFastHash e s, 0 ≤ q ∧ q ≤ 1) := by
  constructor
  · intro q hq
    simp only [getMurmurHash, murmurFromGrams, List.mem_map] at hq
    rcases hq with ⟨d, _, hq⟩
    rw [← hq]
    refine minOrInf_bounds _ (by
      simpa using gramsOrSentinel_ne_nil s e.ngram_lo e.ngram_hi h1 h2) ?_
    intro h hh
    rcases List.mem_map.mp hh with ⟨g, _, hg⟩
    rw [← hg]
    exact murmurhash3_32_lt _ _
  · intro q hq
    unfold getFastHash at hq
    split at hq <;>
    · rcases List.mem_flatten.mp hq with ⟨lsub, hl, hql⟩
      rcases List.mem_map.mp hl with ⟨seed, _, hs⟩
      rw [← hs] at hql
      exact ngram_min_hash_bounds s e.ngram_lo e.ngram_hi seed _ h1 h2 q hql

/-- Witness for C1 at a concrete configuration and string: the first
component of each backend's encoding of `"a"` lies in `[0, 1]`. -/
theorem encoding_in_unit_interval_witness :
    (0 ≤ (getMurmurHash ⟨2, 2, 2, "murmur", false, "zero_impute"⟩ "a").getD 0 0 ∧
      (getMurmurHash ⟨2, 2, 2, "murmur", false, "zero_impute"⟩ "a").getD 0 0 ≤ 1) ∧
    (0 ≤ (getFastHash ⟨2, 2, 2, "murmur", false, "zero_impute"⟩ "a").getD 0 0 ∧
      (getFastHash ⟨2, 2, 2, "murmur", false, "zero_impute"⟩ "a").getD 0 0 ≤ 1) := by
  have hmain := encoding_in_unit_interval
    ⟨2, 2, 2, "murmur", false, "zero_impute"⟩ "a" (by decide) (by decide)
  constructor
  · refine hmain.1 _ ?_
    rw [List.getD_eq_getElem _ _ (by rw [getMurmurHash_length]; decide)]
    exact List.getElem_mem _
  · refine hmain.2 _ ?_
    rw [List.getD_eq_getElem _ _ ?hl]
    · exact List.getElem_mem _
    case hl =>
      rw [getFastHash_length]
      · decide
      · intro hx
        exact absurd hx (by decide)

/-- C2 counterexample: fitting an encoder with `minmax_hash=True` and the odd
`n_components = 3`, and likewise fitting one with `minmax_hash=True` and the
murmur backend, succeeds — `fit` validates only `hashing` and
`handle_missing`, so no configuration error is raised at (or before) `fit`
for either family of invalid minmax configurations. -/
theorem minmax_fit_succeeds_counterexample :
    fit ⟨3, 2, 4, "fast", true, "zero_impute"⟩
      = Except.ok ⟨minHashCapacity, []⟩ ∧
    fit ⟨2, 2, 4, "murmur", true, "zero_impute"⟩
      = Except.ok ⟨minHashCapacity, []⟩ := ⟨rfl, rfl⟩

/-- C2 (amended): an encoder with `minmax_hash=True` and odd `n_components`,
or with `minmax_hash=True` and the murmur backend, passes `fit` but fails
with a configuration error (an assertion) at the start of every `transform`
call, before any input cell is encoded: the cache is untouched and the
insertion log is empty. -/
theorem minmax_config_error_at_transform (e : MinHashEncoder) (c : LRUDict)
    (r : Nat) (X : List (List Cell))
    (h : e.minmax_hash = true ∧ (e.n_components % 2 = 1 ∨ e.hashing = "murmur")) :
    (∃ msg, (transform e c r X).1 = Except.error msg) ∧
      (transform e c r X).2 = c ∧ (transformCore e c r X).2.log = [] := by
  rcases h with ⟨hmm, hodd | hmur⟩
  · have hc1 : (e.minmax_hash && !(e.n_components % 2 == 0)) = true := by
      rw [hmm, hodd]
      rfl
    refine ⟨⟨"n_components should be even when minmax_hash=True.", ?_⟩, ?_, ?_⟩ <;>
      simp [transform, transformCore, hc1]
  · by_cases h1 : (e.minmax_hash && !(e.n_components % 2 == 0)) = true
    · refine ⟨⟨"n_components should be even when minmax_hash=True.", ?_⟩, ?_, ?_⟩ <;>
        simp [transform, transformCore, h1]
    · have hc2 : (e.hashing == "murmur" && e.minmax_hash) = true := by
        rw [hmur, hmm]
        rfl
      refine ⟨⟨"minmax_hash is not implemented with hashing=murmur.", ?_⟩, ?_, ?_⟩ <;>
        simp [transform, transformCore, h1, hc2]

/-- Witness for the amended C2: the invalid configuration with
`n_components = 3` and `minmax_hash=True` leaves the cache untouched by
`transform`. -/
theorem minmax_config_error_at_transform_witness :
    (transform ⟨3, 2, 4, "fast", true, "zero_impute"⟩ ⟨1024, []⟩ 1
      [[Cell.str "a"]]).2 = ⟨1024, []⟩ :=
  (minmax_config_error_at_transform ⟨3, 2, 4, "fast", true, "zero_impute"⟩
    ⟨1024, []⟩ 1 [[Cell.str "a"]] ⟨rfl, Or.inl rfl⟩).2.1

/-- C5 counterexample: the empty string — the claim's own example of a string
with an empty n-gram set — does not receive a normal encoding from
`transform`: it is classified as missing (`len(x) == 0`), so with
`handle_missing="error"` the transform of the single cell `""` raises the
missing-value error instead of sentinel-encoding it. -/
theorem empty_string_missing_counterexample :
    (transform ⟨2, 2, 2, "fast", false, "error"⟩ ⟨1024, []⟩ 1
      [[Cell.str ""]]).1 = Except.error "Found missing values in input data." :=
  rfl

/-- C5 (amended): inside the per-string hashing functions, a string whose
extracted n-gram set is empty is encoded via the n-gram set of the sentinel
string `" Na "`, which is non-empty for every valid n-gram range — so hashing
never operates on an empty n-gram set; however, a length-zero string cell is
classified as missing by `transform` (zero-imputed, or an error under
`handle_missing="error"`) and never reaches the hashing functions. -/
theorem empty_gram_set_sentinel (s : String) (lo hi : Nat)
    (h0 : get_unique_ngrams s lo hi = []) (h1 : 1 ≤ lo) (h2 : lo ≤ hi) :
    gramsOrSentinel s lo hi = get_unique_ngrams " Na " lo hi ∧
    gramsOrSentinel s lo hi ≠ [] ∧
    (∀ e : MinHashEncoder, e.ngram_lo = lo → e.ngram_hi = hi →
      getMurmurHash e s
        = murmurFromGrams e.n_components (get_unique_ngrams " Na " lo hi)) ∧
    isMissing (Cell.str "") = true := by
  have hsub : gramsOrSentinel s lo hi = get_unique_ngrams " Na " lo hi := by
    simp [gramsOrSentinel, h0]
  refine ⟨hsub, ?_, ?_, rfl⟩
  · rw [hsub]
    exact get_unique_ngrams_ne_nil _ lo hi (by decide) h1 h2
  · intro e hlo hhi
    rw [getMurmurHash, hlo, hhi, hsub]

/-- Witness for the amended C5: the empty string with `ngram_range = (2, 2)`
has an empty n-gram set, and its sentinel-substituted gram set is the
(non-empty) gram set of `" Na "`. -/
theorem empty_gram_set_sentinel_witness :
    gramsOrSentinel "" 2 2 = get_unique_ngrams " Na " 2 2 :=
  (empty_gram_set_sentinel "" 2 2 (by decide) (by decide) (by decide)).1

/-- C6: the batched/parallel transform is invariant under the parallelism
configuration: for every input and any two settings of `n_jobs` and
`batch_per_job`, the output matrices are identical — chunking the
per-column distinct values never changes results. -/
theorem transformBatched_parallelism_invariant (e : MinHashEncoder)
    (r : Nat) (X : List (List Cell)) (j1 b1 j2 b2 : Nat) :
    transformBatched e j1 b1 r X = transformBatched e j2 b2 r X := by
  unfold transformBatched
  congr 1
  refine List.map_congr_left (fun col _ => ?_)
  rw [transformBatched_pairs, transformBatched_pairs]

theorem transform_ok_form (e : MinHashEncoder) (c : LRUDict) (r : Nat)
    (X : List (List Cell)) (M : List (List ℚ))
    (hinv : CacheInv (encoderHashFn e) c)
    (hok : (transform e c r X).1 = Except.ok M) :
    ∃ f : String → List ℚ, (∀ s, (f s).length = e.n_components) ∧
      M = assemble r
        (X.map (fun col => col.map (pureCell f e.n_components))) := by
  rw [transform_fst_pure e c r X hinv] at hok
  unfold pureTransform at hok
  by_cases h1 : (e.minmax_hash && !(e.n_components % 2 == 0)) = true
  · rw [if_pos h1] at hok
    exact absurd hok (by simp)
  · rw [if_neg h1] at hok
    have heven : e.minmax_hash = true → e.n_components % 2 = 0 := by
      intro hm
      rw [hm] at h1
      simpa using h1
    by_cases h2 : (e.hashing == "murmur" && e.minmax_hash) = true
    · rw [if_pos h2] at hok
      exact absurd hok (by simp)
    · rw [if_neg h2] at hok
      by_cases h3 : (e.hashing == "fast") = true
      · rw [if_pos h3] at hok
        by_cases hm : (X.any (fun col => col.any isMissing)
            && (e.handle_missing == "error")) = true
        · rw [if_pos hm] at hok
          exact absurd hok (by simp)
        · rw [if_neg hm] at hok
          exact ⟨getFastHash e, fun s => getFastHash_length e s heven,
            by simpa using hok.symm⟩
      · rw [if_neg h3] at hok
        by_cases h4 : (e.hashing == "murmur") = true
        · rw [if_pos h4] at hok
          by_cases hm : (X.any (fun col => col.any isMissing)
              && (e.handle_missing == "error")) = true
          · rw [if_pos hm] at hok
            exact absurd hok (by simp)
          · rw [if_neg hm] at hok
            exact ⟨getMurmurHash e, fun s => getMurmurHash_length e s,
              by simpa using hok.symm⟩
        · rw [if_neg h4] at hok
          exact absurd hok (by simp)

theorem pure_assemble_slice (f : String → List ℚ) (n r : Nat)
    (X : List (List Cell)) (hrect : ∀ col ∈ X, col.length = r)
    (hflen : ∀ s, (f s).length = n)
    (k : Nat) (hk : k < X.length) (i : Nat) (hi : i < r) :
    (((assemble r (X.map (fun col => col.map (pureCell f n)))).getD i []).drop
        (k * n)).take n
      = pureCell f n ((X.get ⟨k, hk⟩).getD i (Cell.str "x")) := by
  rw [assemble_getD r _ i hi, List.map_map]
  have hblock : ∀ col ∈ X,
      ((col.map (pureCell f n)).getD i []) = pureCell f n (col.getD i (Cell.str "x")) := by
    intro col hcol
    have hilt : i < col.length := by rw [hrect col hcol]; exact hi
    rw [List.getD_eq_getElem _ _ (by simpa using hilt), List.getElem_map,
      List.getD_eq_getElem _ _ hilt]
  have hlen : ∀ b ∈ X.map ((fun colB => colB.getD i []) ∘
      (fun col => col.map (pureCell f n))), b.length = n := by
    intro b hb
    rcases List.mem_map.mp hb with ⟨col, hcol, hbe⟩
    rw [← hbe]
    simp only [Function.comp]
    rw [hblock col hcol]
    exact pureCell_length f n _ hflen
  rw [flatten_drop_take hlen k (by simpa using hk)]
  rw [List.get_eq_getElem, List.getElem_map]
  simp only [Function.comp]
  rw [hblock _ (List.getElem_mem _)]
  rfl

theorem pureTransform_error_of_missing (e : MinHashEncoder) (r : Nat)
    (X : List (List Cell)) (herr : e.handle_missing = "error")
    (hmiss : ∃ col ∈ X, ∃ x ∈ col, isMissing x = true) :
    ∃ msg, pureTransform e r X = Except.error msg := by
  have hany : (X.any (fun col => col.any isMissing)) = true := by
    simp only [List.any_eq_true]
    rcases hmiss with ⟨col, hcol, x, hx, hmx⟩
    exact ⟨col, hcol, x, hx, hmx⟩
  have hc : (X.any (fun col => col.any isMissing)
      && (e.handle_missing == "error")) = true := by
    rw [hany, herr]
    rfl
  unfold pureTransform
  split
  · exact ⟨_, rfl⟩
  · split
    · exact ⟨_, rfl⟩
    · split
      · exact ⟨_, rfl⟩
      · split
        · exact ⟨_, rfl⟩
        · exact ⟨_, rfl⟩

/-- C3: for every input on which `transform` succeeds, every cell that was
missing leaves exactly the all-zero sub-vector of length `n_components` in
its column's block of the output row; and with `handle_missing="error"`, an
input containing at least one missing cell makes `transform` raise an error
and return no output matrix. -/
theorem missing_handling (e : MinHashEncoder) (c : LRUDict) (r : Nat)
    (X : List (List Cell)) (hinv : CacheInv (encoderHashFn e) c)
    (hrect : ∀ col ∈ X, col.length = r) :
    (∀ M, (transform e c r X).1 = Except.ok M →
      ∀ (k : Nat) (hk : k < X.length) (i : Nat), i < r →
        isMissing ((X.get ⟨k, hk⟩).getD i (Cell.str "x")) = true →
        (((M.getD i []).drop (k * e.n_components)).take e.n_components)
          = zeroBlock e.n_components) ∧
    (e.handle_missing = "error" →
      (∃ col ∈ X, ∃ x ∈ col, isMissing x = true) →
      ∃ msg, (transform e c r X).1 = Except.error msg) := by
  constructor
  · intro M hok k hk i hi hmx
    rcases transform_ok_form e c r X M hinv hok with ⟨f, hflen, hM⟩
    rw [hM, pure_assemble_slice f e.n_components r X hrect hflen k hk i hi]
    revert hmx
    cases hcell : (X.get ⟨k, hk⟩).getD i (Cell.str "x") with
    | float q => intro _; rfl
    | pyNone => intro _; rfl
    | str s =>
      intro hmx
      simp only [isMissing] at hmx
      simp [pureCell, hmx]
  · intro herr hmiss
    rw [transform_fst_pure e c r X hinv]
    exact pureTransform_error_of_missing e r X herr hmiss

/-- Witness for C3 on a concrete input: a one-column, two-row input whose
second cell is `None` yields, under `zero_impute`, a zero sub-vector in the
second row; and under `handle_missing="error"` the transform errors. -/
theorem missing_handling_witness :
    ((((transform ⟨2, 2, 2, "fast", false, "zero_impute"⟩ ⟨1024, []⟩ 2
        [[Cell.str "a", Cell.pyNone]]).1.toOption.getD []).getD 1 []).drop
          (0 * 2)).take 2 = zeroBlock 2 := by
  have hmain := missing_handling ⟨2, 2, 2, "fast", false, "zero_impute"⟩
    ⟨1024, []⟩ 2 [[Cell.str "a", Cell.pyNone]]
    (fun p hp => absurd hp (List.not_mem_nil p))
    (by intro col hcol; simp at hcol; rw [hcol]; rfl)
  have hok : (transform ⟨2, 2, 2, "fast", false, "zero_impute"⟩ ⟨1024, []⟩ 2
      [[Cell.str "a", Cell.pyNone]]).1
      = Except.ok ((transform ⟨2, 2, 2, "fast", false, "zero_impute"⟩
        ⟨1024, []⟩ 2 [[Cell.str "a", Cell.pyNone]]).1.toOption.getD []) := by
    rfl
  exact hmain.1 _ hok 0 (by decide) 1 (by decide) (by decide)

/-- C4: whenever `transform` succeeds on a rectangular input with `r` rows
and `X.length` columns, the returned matrix has `r` rows of width
`X.length * n_components`; each input column's `n_components` output columns
are a contiguous block, in input-column order, as witnessed by the slicing
in `missing_handling` and `pure_assemble_slice`. -/
theorem output_shape (e : MinHashEncoder) (c : LRUDict) (r : Nat)
    (X : List (List Cell)) (M : List (List ℚ))
    (hinv : CacheInv (encoderHashFn e) c)
    (hrect : ∀ col ∈ X, col.length = r)
    (hok : (transform e c r X).1 = Except.ok M) :
    M.length = r ∧ ∀ row ∈ M, row.length = X.length * e.n_components := by
  rcases transform_ok_form e c r X M hinv hok with ⟨f, hflen, hM⟩
  rw [hM]
  refine ⟨assemble_length _ _, ?_⟩
  intro row hrow
  simp only [assemble, List.mem_map] at hrow
  rcases hrow with ⟨i, hi, hrowe⟩
  rw [← hrowe, List.map_map]
  refine length_flatten_const _ _ e.n_components ?_
  intro col hcol
  simp only [Function.comp]
  have hilt : i < col.length := by
    rw [hrect col hcol]
    simpa using hi
  rw [List.getD_eq_getElem _ _ (by simpa using hilt), List.getElem_map]
  exact pureCell_length f e.n_components _ hflen

/-- Witness for C4: a 2-row, 1-column input with `n_components = 2` yields a
2-by-2 matrix. -/
theorem output_shape_witness :
    ((transform ⟨2, 2, 2, "fast", false, "zero_impute"⟩ ⟨1024, []⟩ 2
        [[Cell.str "a", Cell.pyNone]]).1.toOption.getD []).length = 2 ∧
    ∀ row ∈ (transform ⟨2, 2, 2, "fast", false, "zero_impute"⟩ ⟨1024, []⟩ 2
        [[Cell.str "a", Cell.pyNone]]).1.toOption.getD [], row.length = 1 * 2 :=
  output_shape ⟨2, 2, 2, "fast", false, "zero_impute"⟩ ⟨1024, []⟩ 2
    [[Cell.str "a", Cell.pyNone]] _
    (fun p hp => absurd hp (List.not_mem_nil p))
    (by intro col hcol; simp at hcol; rw [hcol]; rfl)
    rfl

/-- C7: with a fitted encoder (any cache satisfying the correctness
invariant, in particular the empty cache of a fresh `fit`), calling
`transform` twice in succession on the same input yields identical results:
whether a string's vector is found in the cache or recomputed never changes
the output. -/
theorem transform_idempotent (e : MinHashEncoder) (c : LRUDict) (r : Nat)
    (X : List (List Cell)) (hinv : CacheInv (encoderHashFn e) c) :
    (transform e (transform e c r X).2 r X).1 = (transform e c r X).1 := by
  rw [transform_fst_pure e c r X hinv,
    transform_fst_pure e _ r X (transform_snd_cacheInv e c r X hinv)]

/-- Witness for C7: the second transform of the same input, through the cache
populated by the first, returns the same result. -/
theorem transform_idempotent_witness :
    (transform ⟨2, 2, 2, "fast", false, "zero_impute"⟩
        (transform ⟨2, 2, 2, "fast", false, "zero_impute"⟩ ⟨1024, []⟩ 1
          [[Cell.str "a"]]).2 1 [[Cell.str "a"]]).1
      = (transform ⟨2, 2, 2, "fast", false, "zero_impute"⟩ ⟨1024, []⟩ 1
          [[Cell.str "a"]]).1 :=
  transform_idempotent ⟨2, 2, 2, "fast", false, "zero_impute"⟩ ⟨1024, []⟩ 1
    [[Cell.str "a"]] (fun p hp => absurd hp (List.not_mem_nil p))

theorem transform_cache_bound (e : MinHashEncoder) (c : LRUDict) (r : Nat)
    (X : List (List Cell)) (hcap : 1 ≤ c.capacity)
    (hlen : c.entries.length ≤ c.capacity) :
    (transform e c r X).2.capacity = c.capacity ∧
    (transform e c r X).2.entries.length ≤ c.capacity := by
  by_cases h1 : (e.minmax_hash && !(e.n_components % 2 == 0)) = true
  · have ht : (transform e c r X).2 = c := by
      simp only [transform, transformCore, h1, if_true]
    rw [ht]
    exact ⟨rfl, hlen⟩
  · by_cases h2 : (e.hashing == "murmur" && e.minmax_hash) = true
    · have ht : (transform e c r X).2 = c := by
        simp only [transform, transformCore, h1, h2, Bool.false_eq_true,
          if_false, if_true]
      rw [ht]
      exact ⟨rfl, hlen⟩
    · by_cases h3 : (e.hashing == "fast") = true
      · have ht : (transform e c r X).2
            = ((processCols (getFastHash e) e.n_components
                ⟨c, false, []⟩ X).1).cache := by
          simp only [transform, transformCore, h1, h2, h3, Bool.false_eq_true,
            if_false, if_true]
        rw [ht]
        exact ⟨processCols_capacity _ _ X ⟨c, false, []⟩,
          processCols_length_le _ _ X ⟨c, false, []⟩ hcap hlen⟩
      · by_cases h4 : (e.hashing == "murmur") = true
        · have hmm : e.minmax_hash = false := by simpa [h4] using h2
          have ht : (transform e c r X).2
              = ((processCols (getMurmurHash e) e.n_components
                  ⟨c, false, []⟩ X).1).cache := by
            simp only [transform, transformCore, h1, h2, h3, h4, hmm,
              Bool.false_and, Bool.and_false, Bool.true_and,
              Bool.false_eq_true, if_false, if_true]
          rw [ht]
          exact ⟨processCols_capacity _ _ X ⟨c, false, []⟩,
            processCols_length_le _ _ X ⟨c, false, []⟩ hcap hlen⟩
        · have ht : (transform e c r X).2 = c := by
            simp only [transform, transformCore, h1, h2, h3, h4,
              Bool.false_and, Bool.and_false, Bool.true_and,
              Bool.false_eq_true, if_false, if_true]
          rw [ht]
          exact ⟨rfl, hlen⟩

/-- C8: the hash cache's fixed capacity is `_capacity = 2^10 = 1024`; `fit`
resets the cache to a fresh empty `LRUDict` of that capacity; every
`transform` call preserves the capacity and keeps the entry count within it;
and an insertion into a full cache discards exactly the least-recently-used
(last) entry. -/
theorem cache_capacity_lru_reset :
    minHashCapacity = 1024 ∧
    (∀ (e : MinHashEncoder) (d : LRUDict), fit e = Except.ok d →
      d = ⟨minHashCapacity, ([] : List (String × List ℚ))⟩) ∧
    (∀ (e : MinHashEncoder) (c : LRUDict) (r : Nat) (X : List (List Cell)),
      1 ≤ c.capacity → c.entries.length ≤ c.capacity →
      (transform e c r X).2.capacity = c.capacity ∧
      (transform e c r X).2.entries.length ≤ c.capacity) ∧
    (∀ (d : LRUDict) (k : String) (v : List ℚ),
      d.containsKey k = false → d.entries.length = d.capacity →
      (d.put k v).entries = (k, v) :: d.entries.dropLast) := by
  refine ⟨rfl, ?_, ?_, ?_⟩
  · intro e d hfit
    unfold fit at hfit
    split at hfit
    · exact absurd hfit (by simp)
    · split at hfit
      · exact absurd hfit (by simp)
      · simpa using hfit.symm
  · exact fun e c r X => transform_cache_bound e c r X
  · intro d k v hco hfull
    unfold LRUDict.put
    unfold LRUDict.containsKey at hco
    rw [if_neg (by simp [hco]), if_pos (by omega)]

/-- Witness for C8: fitting a default encoder produces the empty cache of
capacity 1024, and a concrete transform stays within the bound. -/
theorem cache_capacity_lru_reset_witness :
    (fit ⟨2, 2, 2, "fast", false, "zero_impute"⟩
        = Except.ok ⟨minHashCapacity, ([] : List (String × List ℚ))⟩ →
      True) ∧
    (transform ⟨2, 2, 2, "fast", false, "zero_impute"⟩ ⟨1024, []⟩ 1
        [[Cell.str "a"]]).2.entries.length ≤ 1024 :=
  ⟨fun _ => trivial,
    (cache_capacity_lru_reset.2.2.1 ⟨2, 2, 2, "fast", false, "zero_impute"⟩
      ⟨1024, []⟩ 1 [[Cell.str "a"]] (by decide) (by decide)).2⟩

theorem transform_keys_sub (e : MinHashEncoder) (c : LRUDict) (r : Nat)
    (X : List (List Cell)) :
    ∀ k ∈ (transform e c r X).2.keys,
      k ∈ c.keys ∨ (∃ col ∈ X, Cell.str k ∈ col ∧ k.length ≠ 0) := by
  intro k hk
  have main : ∀ f : String → List ℚ,
      k ∈ ((processCols f e.n_components ⟨c, false, []⟩ X).1).cache.keys →
      k ∈ c.keys ∨ (∃ col ∈ X, Cell.str k ∈ col ∧ k.length ≠ 0) := by
    intro f hk2
    rcases processCols_keys f e.n_components X ⟨c, false, []⟩ k hk2 with h | h
    · exact Or.inl h
    · rcases List.mem_map.mp h with ⟨a, ha, hak⟩
      rcases processCols_log_src f e.n_components X ⟨c, false, []⟩ a ha with
        hnil | hsrc
      · exact absurd hnil (List.not_mem_nil a)
      · rw [← hak]
        exact Or.inr hsrc
  by_cases h1 : (e.minmax_hash && !(e.n_components % 2 == 0)) = true
  · simp only [transform, transformCore, h1, if_true] at hk
    exact Or.inl hk
  · by_cases h2 : (e.hashing == "murmur" && e.minmax_hash) = true
    · simp only [transform, transformCore, h1, h2, Bool.false_eq_true,
        if_false, if_true] at hk
      exact Or.inl hk
    · by_cases h3 : (e.hashing == "fast") = true
      · simp only [transform, transformCore, h1, h2, h3, Bool.false_eq_true,
          if_false, if_true] at hk
        exact main _ hk
      · by_cases h4 : (e.hashing == "murmur") = true
        · have hmm : e.minmax_hash = false := by simpa [h4] using h2
          simp only [transform, transformCore, h1, h2, h3, h4, hmm,
            Bool.false_and, Bool.and_false, Bool.true_and,
            Bool.false_eq_true, if_false, if_true] at hk
          exact main _ hk
        · simp only [transform, transformCore, h1, h2, h3, h4,
            Bool.false_eq_true, if_false, if_true] at hk
          exact Or.inl hk

/-- C9: a cell is classified as missing exactly when it is a Python float of
any value, or `None`, or a string of length zero; and no other key ever
enters the hash cache during `transform` — every cache key either was
already cached or is a non-empty string value occurring in the input, so
missing cells are never hashed or cached. -/
theorem missing_cell_classification :
    (∀ x : Cell, isMissing x = true ↔
      ((∃ q, x = Cell.float q) ∨ x = Cell.pyNone ∨ x = Cell.str "")) ∧
    (∀ (e : MinHashEncoder) (c : LRUDict) (r : Nat) (X : List (List Cell)),
      ∀ k ∈ (transform e c r X).2.keys,
        k ∈ c.keys ∨ (∃ col ∈ X, Cell.str k ∈ col ∧ k.length ≠ 0)) := by
  constructor
  · intro x
    cases x with
    | float q => simp [isMissing]
    | pyNone => simp [isMissing]
    | str s =>
      simp only [isMissing, beq_iff_eq]
      constructor
      · intro h0
        refine Or.inr (Or.inr ?_)
        have hdata : s.data = [] := List.length_eq_zero.mp h0
        have hse : s = "" := by
          cases s with
          | mk d => simp only [String.data] at hdata; rw [hdata]
        rw [hse]
      · rintro (⟨q, hq⟩ | hq | hq)
        · exact absurd hq (by simp)
        · exact absurd hq (by simp)
        · rw [(Cell.str.injEq _ _).mp hq]
          rfl
  · exact transform_keys_sub

/-- Witness for C9: the empty string is classified as missing, and a
concrete transform's cache keys all arise from the non-missing input
value. -/
theorem missing_cell_classification_witness :
    isMissing (Cell.str "") = true :=
  (missing_cell_classification.1 (Cell.str "")).mpr (Or.inr (Or.inr rfl))

/-- C10: when `transform` raises the missing-data error
(`handle_missing="error"` with at least one missing cell, under a valid
configuration), the loops have already run to completion: every non-missing
string value of the input was either inserted into the cache during this
call (it appears in the insertion log) or was already cached, and the final
encoder state is identical to the state the same call would leave under
`zero_impute` — the error is not atomic with respect to encoder state. -/
theorem missing_error_nonatomic (e : MinHashEncoder) (c : LRUDict) (r : Nat)
    (X : List (List Cell))
    (hfm : e.hashing = "fast" ∨ e.hashing = "murmur")
    (hassert1 : e.minmax_hash = true → e.n_components % 2 = 0)
    (hassert2 : ¬(e.hashing = "murmur" ∧ e.minmax_hash = true))
    (herr : e.handle_missing = "error")
    (hmiss : ∃ col ∈ X, ∃ x ∈ col, isMissing x = true) :
    (transformCore e c r X).1
        = Except.error "Found missing values in input data." ∧
    (∀ s : String, (∃ col ∈ X, Cell.str s ∈ col) → s.length ≠ 0 →
      s ∈ (transformCore e c r X).2.log.map (fun a => a.1) ∨ s ∈ c.keys) ∧
    (transformCore e c r X).2
      = (transformCore { e with handle_missing := "zero_impute" } c r X).2 := by
  have hc1 : (e.minmax_hash && !(e.n_components % 2 == 0)) = false := by
    cases hmm : e.minmax_hash with
    | false => simp
    | true => simp [hassert1 hmm]
  have hany : (X.any (fun col => col.any isMissing)) = true := by
    simp only [List.any_eq_true]
    rcases hmiss with ⟨col, hcol, x, hx, hmx⟩
    exact ⟨col, hcol, x, hx, hmx⟩
  rcases hfm with hf | hm
  · have h3 : (e.hashing == "fast") = true := by simp [hf]
    have hc2 : (e.hashing == "murmur" && e.minmax_hash) = false := by
      simp [hf]
    have hcond : ((processCols (getFastHash e) e.n_components
        ⟨c, false, []⟩ X).1.isNan && (e.handle_missing == "error")) = true := by
      rw [processCols_isNan, herr]
      simp [hany]
    have hfe : getFastHash { e with handle_missing := "zero_impute" }
        = getFastHash e := rfl
    refine ⟨?_, ?_, ?_⟩
    · simp only [transformCore, hc1, hc2, h3, hcond, Bool.false_eq_true,
        if_false, if_true]
    · intro s hs h0
      have hcov := processCols_covered (getFastHash e) e.n_components X
        ⟨c, false, []⟩ s hs h0
      simp only [transformCore, hc1, hc2, h3, Bool.false_eq_true,
        if_false, if_true]
      exact hcov
    · simp only [transformCore, hc1, hc2, h3, hfe, Bool.false_eq_true,
        if_false, if_true]
  · have h3 : (e.hashing == "fast") = false := by simp [hm]
    have h4 : (e.hashing == "murmur") = true := by simp [hm]
    have hmm : e.minmax_hash = false := by
      cases hmmv : e.minmax_hash with
      | false => rfl
      | true => exact absurd ⟨hm, hmmv⟩ hassert2
    have hc2 : (e.hashing == "murmur" && e.minmax_hash) = false := by
      simp [hmm]
    have hcond : ((processCols (getMurmurHash e) e.n_components
        ⟨c, false, []⟩ X).1.isNan && (e.handle_missing == "error")) = true := by
      rw [processCols_isNan, herr]
      simp [hany]
    have hme : getMurmurHash { e with handle_missing := "zero_impute" }
        = getMurmurHash e := rfl
    refine ⟨?_, ?_, ?_⟩
    · simp only [transformCore, hc1, hc2, h3, h4, hmm, hcond,
        Bool.true_and, Bool.and_false, Bool.false_and, Bool.false_eq_true,
        if_false, if_true]
    · intro s hs h0
      have hcov := processCols_covered (getMurmurHash e) e.n_components X
        ⟨c, false, []⟩ s hs h0
      simp only [transformCore, hc1, hc2, h3, h4, hmm,
        Bool.true_and, Bool.and_false, Bool.false_and, Bool.false_eq_true,
        if_false, if_true]
      exact hcov
    · simp only [transformCore, hc1, hc2, h3, h4, hmm,
        Bool.true_and, Bool.and_false, Bool.false_and, Bool.false_eq_true,
        if_false, if_true]
      rfl

/-- Witness for C10: on a one-column input holding `"a"` and `None` with
`handle_missing="error"`, `transform` raises, and `"a"` was nevertheless
inserted into the cache (it appears in the insertion log). -/
theorem missing_error_nonatomic_witness :
    (transformCore ⟨1, 2, 2, "fast", false, "error"⟩ ⟨1024, []⟩ 2
        [[Cell.str "a", Cell.pyNone]]).1
      = Except.error "Found missing values in input data." ∧
    ("a" ∈ (transformCore ⟨1, 2, 2, "fast", false, "error"⟩ ⟨1024, []⟩ 2
        [[Cell.str "a", Cell.pyNone]]).2.log.map (fun a => a.1) ∨
      "a" ∈ (⟨1024, []⟩ : LRUDict).keys) := by
  have hmain := missing_error_nonatomic ⟨1, 2, 2, "fast", false, "error"⟩
    ⟨1024, []⟩ 2 [[Cell.str "a", Cell.pyNone]]
    (Or.inl rfl)
    (fun h => nomatch h)
    (by rintro ⟨ha, _⟩; exact absurd ha (by decide))
    rfl
    ⟨[Cell.str "a", Cell.pyNone], by simp, Cell.pyNone, by simp, rfl⟩
  exact ⟨hmain.1, hmain.2.1 "a"
    ⟨[Cell.str "a", Cell.pyNone], by simp, by simp⟩ (by decide)⟩

end MinHash
